import Mathlib

/-!
Verification of the `pyoptimum` portfolio/model/frontier subsystem
(`src/pyoptimum/portfolio.py`) against its natural-language specification.

The embedding is shallow: numerical arrays become `List ℚ` / `List (List ℚ)`,
the two external numerical routines used by the source (`np.linalg.inv` and
`np.sqrt`) are passed explicitly as an `ExtOps` record, Python `None`-able
slots become `Option`, and methods that mutate `self` become explicit
state-passing functions.  Fallible paths (Python exceptions, attribute
errors, unbounded property recursion) are modelled with `Option` and an
explicit error type.
-/

/-- Vectors are lists of rationals (numpy 1-d arrays in the source). -/
abbrev Vec := List ℚ

/-- Matrices are row-major lists of rows (numpy 2-d arrays in the source). -/
abbrev Mat := List (List ℚ)

/-- Scalar multiplication of a vector (`c * v` in numpy). -/
def vscale (c : ℚ) (v : Vec) : Vec :=
  v.map (fun a => c * a)

/-- Elementwise sum of two vectors (`a + b` in numpy). -/
def vadd (a b : Vec) : Vec :=
  List.zipWith (· + ·) a b

/-- Elementwise product of two vectors (`a * b` in numpy). -/
def vmul (a b : Vec) : Vec :=
  List.zipWith (· * ·) a b

/-- Dot product (`np.dot`). -/
def dotp (a b : Vec) : ℚ :=
  (List.zipWith (· * ·) a b).sum

/-- Scalar multiplication of a matrix. -/
def mscale (c : ℚ) (M : Mat) : Mat :=
  M.map (vscale c)

/-- Elementwise sum of two matrices. -/
def madd (A B : Mat) : Mat :=
  List.zipWith vadd A B

/-- Matrix transpose (numpy `.transpose()`), defined structurally over the
rectangular row lists the source produces. -/
def transposeM : Mat → Mat
  | [] => []
  | [r] => r.map (fun a => [a])
  | r :: rest => List.zipWith List.cons r (transposeM rest)

/-- Matrix-vector product (`A @ v`): row-wise dot products. -/
def matvec (A : Mat) (v : Vec) : Vec :=
  A.map (fun row => dotp row v)

/-- Matrix-matrix product (`A @ B`). -/
def matmul (A B : Mat) : Mat :=
  A.map (fun row => (transposeM B).map (fun col => dotp row col))

/-- Main diagonal of a matrix (`np.diag` of a 2-d array). -/
def diag (A : Mat) : Vec :=
  A.enum.map (fun p => p.2.getD p.1 0)

/-- Maximum entry of a vector (`np.max`); the source only applies it to the
non-empty `std` vector, the default for `[]` is irrelevant. -/
def vmax (v : Vec) : ℚ :=
  v.foldl max v.headI

/-- The two numerical routines the source takes from numpy:
`np.linalg.inv` and `np.sqrt`.  They are external library calls, so the
embedding abstracts them as parameters. -/
structure ExtOps where
  inv : Mat → Mat
  sqrt : ℚ → ℚ

/-- Symmetrization `(M + M.T) / 2` performed after each inversion
(`portfolio.py` lines 48 and 63). -/
def symmetrize (M : Mat) : Mat :=
  mscale (1/2) (madd M (transposeM M))

/-- The `std` formula `np.sqrt(Q + np.diag(F @ D @ F.T))`
(`portfolio.py` line 40). -/
def stdFormula (ops : ExtOps) (Q : Vec) (F D : Mat) : Vec :=
  (vadd Q (diag (matmul (matmul F D) (transposeM F)))).map ops.sqrt

/-- The `Model` entity (`portfolio.py` lines 14-86): plain attributes
`r`, `F`, `Q` plus the three lazy slots `_std`, `_Di`, `_D`.
`computes` instruments the embedding: it counts compute-on-miss events of
the lazy properties, so "no recomputation" is expressible. -/
structure Model where
  r : Vec
  F : Mat
  Q : Vec
  stdSlot : Option Vec
  diSlot : Option Mat
  dSlot : Option Mat
  computes : Nat
deriving DecidableEq

/-- The `D` property getter (lines 43-50): return the cached `_D`, else
invert the cached `_Di` (a `_Di` miss there would recurse forever in the
source, modelled as `none`), symmetrize, cache, return. -/
def Model.getD (ops : ExtOps) (m : Model) : Option (Mat × Model) :=
  match m.dSlot with
  | some d => some (d, m)
  | none =>
    match m.diSlot with
    | some di =>
      let d := symmetrize (ops.inv di)
      some (d, { m with dSlot := some d, computes := m.computes + 1 })
    | none => none

/-- The `Di` property getter (lines 58-65), dual to `Model.getD`. -/
def Model.getDi (ops : ExtOps) (m : Model) : Option (Mat × Model) :=
  match m.diSlot with
  | some di => some (di, m)
  | none =>
    match m.dSlot with
    | some d =>
      let di := symmetrize (ops.inv d)
      some (di, { m with diSlot := some di, computes := m.computes + 1 })
    | none => none

/-- The `std` property getter (lines 37-41): return the cached `_std`,
else read the `D` property (which may itself compute and cache) and apply
the `std` formula, cache, return. -/
def Model.getStd (ops : ExtOps) (m : Model) : Option (Vec × Model) :=
  match m.stdSlot with
  | some s => some (s, m)
  | none =>
    match m.getD ops with
    | some (d, m1) =>
      let s := stdFormula ops m1.Q m1.F d
      some (s, { m1 with stdSlot := some s, computes := m1.computes + 1 })
    | none => none

/-- The `D` property setter (lines 52-56): store the value, clear the
cached `_Di` and `_std`. -/
def Model.setD (m : Model) (v : Mat) : Model :=
  { m with dSlot := some v, diSlot := none, stdSlot := none }

/-- The `Di` property setter (lines 67-71): store the value, clear the
cached `_D` and `_std`. -/
def Model.setDi (m : Model) (v : Mat) : Model :=
  { m with diSlot := some v, dSlot := none, stdSlot := none }

/-- Construction from a dict carrying `D` (lines 22-35): the three plain
attributes are stored, all slots start `None`, then the `D` setter runs. -/
def Model.ofDataD (r : Vec) (F : Mat) (Q : Vec) (D : Mat) : Model :=
  Model.setD { r := r, F := F, Q := Q, stdSlot := none, diSlot := none,
               dSlot := none, computes := 0 } D

/-- Construction from a dict carrying `Di` (lines 22-33). -/
def Model.ofDataDi (r : Vec) (F : Mat) (Q : Vec) (Di : Mat) : Model :=
  Model.setDi { r := r, F := F, Q := Q, stdSlot := none, diSlot := none,
                dSlot := none, computes := 0 } Di

/-- Extended rationals for the `lower`/`upper` bound columns, whose defaults
are `-np.inf` / `np.inf` (`portfolio.py` lines 317-318). -/
inductive XRat
  | negInf
  | fin (q : ℚ)
  | posInf
deriving DecidableEq

/-- Order on extended rationals (the order numpy uses for `maximum`,
`minimum` and comparisons with `inf`). -/
def XRat.le : XRat → XRat → Bool
  | .negInf, _ => true
  | _, .posInf => true
  | .fin a, .fin b => a ≤ b
  | _, _ => false

/-- `np.maximum` on extended rationals. -/
def XRat.max : XRat → XRat → XRat
  | .negInf, b => b
  | a, .negInf => a
  | .posInf, _ => .posInf
  | _, .posInf => .posInf
  | .fin a, .fin b => .fin (Max.max a b)

/-- `np.minimum` on extended rationals. -/
def XRat.min : XRat → XRat → XRat
  | .posInf, b => b
  | a, .posInf => a
  | .negInf, _ => .negInf
  | _, .negInf => .negInf
  | .fin a, .fin b => .fin (Min.min a b)

/-- The `function` argument of `apply_constraint`
(`ConstraintFunctionLiteral`, line 98). -/
inductive CFun
  | sales
  | purchases
  | shortSales
  | holdings
deriving DecidableEq

/-- The `sign` argument of `apply_constraint` (`≤` or `≥`, line 99). -/
inductive CSign
  | le
  | ge
deriving DecidableEq

/-- The `unit` argument of `apply_constraint`
(`ConstraintUnitLiteral`, line 100). -/
inductive CUnit
  | shares
  | value
  | percentValue
deriving DecidableEq

/-- One row of the portfolio table: ticker index plus the `shares`,
`lower`, `upper`, `close ($)` and `value (%)` columns.  The last two are
meaningful only once prices have been retrieved; the table-level flags
live in `PortTable`. -/
structure PortRow where
  ticker : String
  shares : ℚ
  lower : XRat
  upper : XRat
  close : ℚ
  valuePct : ℚ
deriving DecidableEq

/-- Unit conversion to shares (`portfolio.py` lines 629-635): `value` is
unchanged for `'shares'`, divided by `close ($)` for `'value'`, and
multiplied by `shares / 100` for `'percent value'`. -/
def toShares (u : CUnit) (shares close v : ℚ) : ℚ :=
  match u with
  | .shares => v
  | .value => v / close
  | .percentValue => v * (shares / 100)

/-- The function/sign dispatch table of `apply_constraint`
(lines 637-660): produces the optionally-set raw lower and upper bounds. -/
def rawBounds (f : CFun) (s : CSign) (shares v : ℚ) : Option ℚ × Option ℚ :=
  match f, s with
  | .sales, .le => (some (shares - v), none)
  | .sales, .ge => (none, some (shares - v))
  | .purchases, .le => (none, some (shares + v))
  | .purchases, .ge => (some (shares + v), none)
  | .shortSales, .le => (some (-v), none)
  | .shortSales, .ge => (none, some (-v))
  | .holdings, .le => (none, some v)
  | .holdings, .ge => (some v, none)

/-- The three trading-mode clamps applied in source order
`short_sales` then `buy` then `sell` (lines 662-681); each one is the
`np.where` expression of the source. -/
def applyClamps (shortSales buy sell : Bool) (shares b : ℚ) : ℚ :=
  let b1 := if shortSales then b else (if b > 0 then b else 0)
  let b2 := if buy then b1 else (if b1 > shares then shares else b1)
  if sell then b2 else (if b2 < shares then shares else b2)

/-- Per-row effect of `apply_constraint`: rows whose ticker is not in the
`tickers` argument are untouched; a listed row uses the value aligned with
its position in `tickers` (pandas `.loc[tickers, ...]` alignment; the
source's scalar broadcast is the caller replicating the value, and the
embedding assumes `vals` has the length of `tickers` as the broadcast
guarantees).  Bounds merge conservatively (lines 683-688). -/
def applyConstraintRow (tickers : List String) (f : CFun) (sg : CSign)
    (vals : List ℚ) (u : CUnit) (shortSales buy sell : Bool)
    (row : PortRow) : PortRow :=
  match tickers.findIdx? (fun t => t = row.ticker) with
  | none => row
  | some j =>
    let v := toShares u row.shares row.close (vals.getD j 0)
    let bounds := rawBounds f sg row.shares v
    let lb := bounds.1.map (applyClamps shortSales buy sell row.shares)
    let ub := bounds.2.map (applyClamps shortSales buy sell row.shares)
    { row with
      lower := match lb with
               | some l => row.lower.max (.fin l)
               | none => row.lower
      upper := match ub with
               | some up => row.upper.min (.fin up)
               | none => row.upper }

/-- `Portfolio.apply_constraint` (lines 602-688) as a transformation of the
portfolio rows; an empty ticker list is a quick no-op return. -/
def applyConstraint (p : List PortRow) (tickers : List String) (f : CFun)
    (sg : CSign) (vals : List ℚ) (u : CUnit)
    (shortSales buy sell : Bool) : List PortRow :=
  if tickers.isEmpty then p
  else p.map (applyConstraintRow tickers f sg vals u shortSales buy sell)

/-- `Portfolio.remove_constraints` (lines 588-600): reset the bounds of the
listed tickers to `(-inf, inf)`; empty list is a quick no-op return. -/
def removeConstraints (p : List PortRow) (tickers : List String) : List PortRow :=
  if tickers.isEmpty then p
  else p.map (fun row =>
    if row.ticker ∈ tickers then { row with lower := .negInf, upper := .posInf }
    else row)

/-- `np.searchsorted(..., side='left')` as invoked through
`df[column].searchsorted(value)` (line 118).  On the sorted input the
source documents, the binary search returns the leftmost index whose entry
is `≥ value`, which is the length of the longest strictly-smaller
prefix. -/
def searchsortedLeft (xs : List ℚ) (v : ℚ) : Nat :=
  (xs.takeWhile (fun x => x < v)).length

/-- `Portfolio._locate_value` (lines 116-128) on the named column of the
frontier table, returning row indices in place of the `df.iloc` rows
(`df.iloc[-1]` is index `n - 1`, `df.iloc[0]` is index `0`). -/
def locateValue (v : ℚ) (xs : List ℚ) : Option Nat × Option Nat :=
  let index := searchsortedLeft xs v
  let n := xs.length
  if index = n then (some (n - 1), none)
  else if index = 0 then (none, some 0)
  else (some (index - 1), some index)

/-- `Portfolio.return_and_variance` (lines 204-211).  `model.D` is a
property read, so the call can fill the model's `_D` cache; the updated
model is returned alongside `(mu, std)`. -/
def returnAndVariance (ops : ExtOps) (x : Vec) (m : Model) :
    Option (ℚ × ℚ × Model) :=
  match m.getD ops with
  | none => none
  | some (d, m1) =>
    let value := x.sum
    let mu := dotp x m1.r / value
    let v := matvec (transposeM m1.F) x
    let std := ops.sqrt (dotp (vmul m1.Q x) x + dotp (matvec d v) v) / value
    some (mu, std, m1)

/-- The portfolio table (`self.portfolio`): rows plus flags recording
which derived columns exist (`'close ($)' in self.portfolio` is the
price-presence test of `has_prices`, line 232). -/
structure PortTable where
  rows : List PortRow
  hasClose : Bool
deriving DecidableEq

/-- One point of the raw `frontier` solver response:
`{'mu': ..., 'sol': {'status': ..., 'x': ...}}` (lines 412-417). -/
structure SolPoint where
  mu : ℚ
  status : String
  x : Vec
deriving DecidableEq

/-- One row of the assembled frontier table (line 420). -/
structure FrontierRow where
  mu : ℚ
  std : ℚ
  x : Vec
deriving DecidableEq

/-- The saved frontier query (`frontier_query_params`); its content is
opaque to every claim, `none` stands for the initial empty dict `{}`. -/
abbrev Query := List (String × ℚ)

/-- The Python error taxonomy relevant here: `assert` statements raise
`AssertionError` (precondition violations), domain errors are
`ValueError`. -/
inductive PErr
  | assertionError (msg : String)
  | valueError (msg : String)
deriving DecidableEq

/-- The `Portfolio` state relevant to the claims (constructor,
lines 102-114). -/
structure PortState where
  portfolio : Option PortTable
  models : List (String × Model)
  modelWeights : List (String × ℚ)
  modelMethod : String
  frontier : Option (List FrontierRow)
  frontierQueryParams : Option Query
  frontierMethod : String
deriving DecidableEq

/-- `Portfolio.has_prices` (lines 228-232). -/
def PortState.hasPrices (s : PortState) : Bool :=
  match s.portfolio with
  | none => false
  | some t => t.hasClose

/-- `Portfolio.has_frontier` (lines 234-238). -/
def PortState.hasFrontier (s : PortState) : Bool :=
  s.frontier.isSome

/-- `Portfolio.has_models` (lines 240-244). -/
def PortState.hasModels (s : PortState) : Bool :=
  !s.models.isEmpty

/-- `Portfolio.invalidate_frontier` (lines 220-226). -/
def PortState.invalidateFrontier (s : PortState) : PortState :=
  { s with frontier := none, frontierQueryParams := none,
           frontierMethod := "none" }

/-- Pair each `(range, weight)` item with the stored model it names
(the `self.models[rg]` lookups of `get_model`, lines 270-279); `none` if a
range label is missing (a `KeyError` in the source). -/
def lookupModels (ws : List (String × ℚ)) (models : List (String × Model)) :
    Option (List (ℚ × Model)) :=
  match ws with
  | [] => some []
  | (rg, w) :: rest =>
    match List.lookup rg models with
    | none => none
    | some m => (lookupModels rest models).map (fun l => (w, m) :: l)

/-- Weighted `D` attribute reads for the linear combination: each is a
property access that may invert the sub-model's cached `Di`.  The values
are deterministic, so the memoization into the stored sub-models (which no
claim observes) is not threaded back. -/
def weightedDs (ops : ExtOps) : List (ℚ × Model) → Option (List (ℚ × Mat))
  | [] => some []
  | (w, m) :: rest =>
    match m.getD ops with
    | none => none
    | some (d, _) => (weightedDs ops rest).map (fun l => (w, d) :: l)

/-- Weighted `Di` attribute reads for the linear-fractional combination. -/
def weightedDis (ops : ExtOps) : List (ℚ × Model) → Option (List (ℚ × Mat))
  | [] => some []
  | (w, m) :: rest =>
    match m.getDi ops with
    | none => none
    | some (di, _) => (weightedDis ops rest).map (fun l => (w, di) :: l)

/-- Python `sum` over a non-empty list of arrays (the `sum([...])` of
`get_model`); the empty case never occurs because `has_models` holds. -/
def sumVecs : List Vec → Vec
  | [] => []
  | v :: vs => vs.foldl vadd v

/-- Python `sum` over a non-empty list of matrices. -/
def sumMats : List Mat → Mat
  | [] => []
  | m :: ms => ms.foldl madd m

/-- `Portfolio.get_model` (lines 264-281): assert models exist, then build
a fresh `Model` from the weight-sum of `r, D, F, Q` (method `'linear'` or a
single range) or of `r, Di, F, Q` (method `'linear-fractional'`). -/
def getModel (ops : ExtOps) (s : PortState) : Option Model :=
  if s.hasModels = false then none
  else
    match lookupModels s.modelWeights s.models with
    | none => none
    | some wms =>
      let rSum := sumVecs (wms.map (fun wm => vscale wm.1 wm.2.r))
      let fSum := sumMats (wms.map (fun wm => mscale wm.1 wm.2.F))
      let qSum := sumVecs (wms.map (fun wm => vscale wm.1 wm.2.Q))
      if s.modelMethod = "linear" || s.models.length == 1 then
        match weightedDs ops wms with
        | none => none
        | some wds =>
          some (Model.ofDataD rSum fSum qSum
            (sumMats (wds.map (fun wd => mscale wd.1 wd.2))))
      else
        match weightedDis ops wms with
        | none => none
        | some wdis =>
          some (Model.ofDataDi rSum fSum qSum
            (sumMats (wdis.map (fun wd => mscale wd.1 wd.2))))

/-- The frontier-assembly loop of `retrieve_frontier` (lines 410-417):
keep the points whose solver status is `'optimal'`, take `mu` from the
response and recompute `std` through `return_and_variance`. -/
def frontierValues (ops : ExtOps) (model : Model) :
    List SolPoint → Option (List FrontierRow)
  | [] => some []
  | p :: rest =>
    if p.status = "optimal" then
      match returnAndVariance ops p.x model with
      | none => none
      | some (_, std, _) =>
        (frontierValues ops model rest).map
          (fun l => { mu := p.mu, std := std, x := p.x } :: l)
    else frontierValues ops model rest

/-- `Portfolio.retrieve_frontier` (lines 381-425) from the point the solver
response `sol` is in hand; `query` is the request built by
`_get_portfolio_query`.  Returns the new state and the raised error, if
any; the outer `Option` is the embedding's partiality (model lookup or
property failures outside any claim). -/
def retrieveFrontier (ops : ExtOps) (s : PortState) (query : Query)
    (sol : List SolPoint) : Option (PortState × Option PErr) :=
  if !(s.hasPrices && s.hasModels) then
    some (s, some (.assertionError "Either prices or models are missing"))
  else if sol.length = 0 then
    some (s.invalidateFrontier,
          some (.valueError "Could not calculate optimal frontier; constraints likely make the problem infeasible."))
  else
    match getModel ops s with
    | none => none
    | some model =>
      match frontierValues ops model sol with
      | none => none
      | some rows =>
        some ({ s with frontier := some rows,
                       frontierQueryParams := some query,
                       frontierMethod := "optimal" }, none)

/-- Weight normalization inside `set_models_weights` (lines 507-514):
divide by the sum when positive, else uniform `1/len`. -/
def normalizeWeights (w : List (String × ℚ)) : List (String × ℚ) :=
  let s := (w.map Prod.snd).sum
  if s > 0 then w.map (fun kv => (kv.1, kv.2 / s))
  else w.map (fun kv => (kv.1, 1 / (w.length : ℚ)))

/-- Python `dict.keys() == dict.keys()` is set equality of the key sets. -/
def keysEqAsSets (a b : List String) : Bool :=
  a.all (fun k => b.contains k) && b.all (fun k => a.contains k)

/-- The frontier-update loop of `set_models_weights` (lines 517-522):
recompute the `mu`/`std` columns of every row from its stored `x` with the
given model; the `x` column is untouched. -/
def remapRows (ops : ExtOps) (model : Model) :
    List FrontierRow → Option (List FrontierRow)
  | [] => some []
  | r :: rest =>
    match returnAndVariance ops r.x model with
    | none => none
    | some (mu, std, _) =>
      (remapRows ops model rest).map
        (fun l => { mu := mu, std := std, x := r.x } :: l)

/-- `Portfolio.set_models_weights` (lines 491-523): three precondition
asserts, weight normalization, and, when a frontier is present, the local
recomputation of its `mu`/`std` columns followed by tagging the frontier
`'approximate'`.  No solver call occurs on any path. -/
def setModelsWeights (ops : ExtOps) (s : PortState) (w : List (String × ℚ)) :
    Option (PortState × Option PErr) :=
  if s.hasModels = false then
    some (s, some (.assertionError "Models have not yet been retrieved"))
  else if keysEqAsSets (s.models.map Prod.fst) (w.map Prod.fst) = false then
    some (s, some (.assertionError "Weights must have the same keys as models"))
  else if w.all (fun kv => decide (0 ≤ kv.2)) = false then
    some (s, some (.assertionError "Weights must be non-negative"))
  else
    let s1 := { s with modelWeights := normalizeWeights w }
    if s1.hasFrontier then
      match s1.frontier with
      | none => none
      | some rows =>
        match getModel ops s1 with
        | none => none
        | some model =>
          match remapRows ops model rows with
          | none => none
          | some rows2 =>
            some ({ s1 with frontier := some rows2,
                            frontierMethod := "approximate" }, none)
    else some (s1, none)

/-- `Portfolio.get_return_and_variance` (lines 576-580): the `(mu, std)`
of the current `value (%)` allocation under the current model. -/
def getReturnAndVariance (ops : ExtOps) (s : PortState) : Option (ℚ × ℚ) :=
  match s.portfolio with
  | none => none
  | some t =>
    match getModel ops s with
    | none => none
    | some model =>
      (returnAndVariance ops (t.rows.map PortRow.valuePct) model).map
        (fun r => (r.1, r.2.1))

/-- The recommendation dict `{'x', 'status', 'std', 'mu'}` returned by
`retrieve_recommendation` (line 475 / line 486). -/
structure RecResult where
  x : Vec
  status : String
  std : ℚ
  mu : ℚ
deriving DecidableEq

/-- Linear interpolation `(1 - eta) * a + eta * b` on vectors
(line 472). -/
def interpVec (eta : ℚ) (a b : Vec) : Vec :=
  vadd (vscale (1 - eta) a) (vscale eta b)

/-- The `method == 'approximate'` branch of `retrieve_recommendation`
(lines 455-475): bracket the target `mu` in the frontier's `mu` column and
linearly interpolate `x` and `std`; at an extreme bracket the extreme row
is returned as is. -/
def approxRecommendation (front : List FrontierRow) (mu : ℚ) :
    Option RecResult :=
  match locateValue mu (front.map FrontierRow.mu) with
  | (none, some j) =>
    (front.get? j).map (fun right => ⟨right.x, "optimal", right.std, mu⟩)
  | (some i, none) =>
    (front.get? i).map (fun left => ⟨left.x, "optimal", left.std, mu⟩)
  | (some i, some j) =>
    match front.get? i, front.get? j with
    | some left, some right =>
      let eta := (mu - left.mu) / (right.mu - left.mu)
      some ⟨interpVec eta left.x right.x, "optimal",
            (1 - eta) * left.std + eta * right.std, mu⟩
    | _, _ => none
  | (none, none) => none

/-- The `mu is None` branch of `retrieve_recommendation` (lines 439-453):
bracket the portfolio's current risk in the `std` column and interpolate
the implied target return. -/
def resolveMuFromStd (ops : ExtOps) (s : PortState)
    (front : List FrontierRow) : Option ℚ :=
  match getReturnAndVariance ops s with
  | none => none
  | some (_, std) =>
    match locateValue std (front.map FrontierRow.std) with
    | (none, some j) => (front.get? j).map FrontierRow.mu
    | (some i, none) => (front.get? i).map FrontierRow.mu
    | (some i, some j) =>
      match front.get? i, front.get? j with
      | some left, some right =>
        let eta := (std - left.std) / (right.std - left.std)
        some ((1 - eta) * left.mu + eta * right.mu)
      | _, _ => none
    | (none, none) => none

/-- The response of the follow-up `'portfolio'` solver call used by the
`'exact'` method (line 482): `{'status': ..., 'x': ...}`. -/
structure ExactResp where
  status : String
  x : Vec
deriving DecidableEq

/-- `Portfolio.retrieve_recommendation` (lines 427-489) from the point the
(possible) follow-up solver response `recs` is in hand.  The outer
`Option` is `none` on the `has_frontier` assertion failure and on the
embedding's partiality; the inner `Option RecResult` is the Python return
value, which is implicitly `None` for an unrecognized `method`. -/
def retrieveRecommendation (ops : ExtOps) (s : PortState) (muArg : Option ℚ)
    (method : String) (recs : ExactResp) : Option (Option RecResult) :=
  if s.hasFrontier = false then none
  else
    match s.frontier with
    | none => none
    | some front =>
      let muRes : Option ℚ :=
        match muArg with
        | some mu => some mu
        | none => resolveMuFromStd ops s front
      match muRes with
      | none => none
      | some mu =>
        if method = "approximate" then some (approxRecommendation front mu)
        else if method = "exact" then
          if recs.status = "optimal" then
            match getModel ops s with
            | none => none
            | some model =>
              match returnAndVariance ops recs.x model with
              | none => none
              | some (_, std, _) => some (some ⟨recs.x, recs.status, std, mu⟩)
          else
            some (approxRecommendation front mu)
        else some none

/-- A value of the attribute dict produced by `Model.to_dict`: the
attributes are 1-d (`r`, `Q`, `std`) or 2-d (`F`, `D`, `Di`) arrays. -/
inductive AttrVal
  | vec (v : Vec)
  | mat (M : Mat)
deriving DecidableEq

/-- Elementwise division of an attribute value by a scalar. -/
def AttrVal.divBy (a : AttrVal) (c : ℚ) : AttrVal :=
  match a with
  | .vec v => .vec (v.map (fun q => q / c))
  | .mat M => .mat (M.map (fun row => row.map (fun q => q / c)))

/-- `getattr(self, f)` on a `Model` for the attribute names `to_dict` can
receive; property reads may fill caches, so the (possibly updated) model
is returned too.  Any other name is an `AttributeError` (`none`). -/
def Model.getattr (ops : ExtOps) (m : Model) (f : String) :
    Option (AttrVal × Model) :=
  if f = "r" then some (.vec m.r, m)
  else if f = "F" then some (.mat m.F, m)
  else if f = "Q" then some (.vec m.Q, m)
  else if f = "D" then (m.getD ops).map (fun dm => (.mat dm.1, dm.2))
  else if f = "Di" then (m.getDi ops).map (fun dm => (.mat dm.1, dm.2))
  else if f = "std" then (m.getStd ops).map (fun sm => (.vec sm.1, sm.2))
  else none

/-- The dict comprehension `{f: getattr(self, f) for f in fields}`
(line 79), threading the model through the property reads; `dictInsert`
keeps the entry of a later duplicate key, as the comprehension's repeated
assignment does. -/
def dictInsert (f : String) (v : AttrVal)
    (r : Option (List (String × AttrVal) × Model)) :
    Option (List (String × AttrVal) × Model) :=
  match r with
  | none => none
  | some (d, m2) =>
    if d.any (fun kv => kv.1 = f) then some (d, m2)
    else some ((f, v) :: d, m2)

def buildDict (ops : ExtOps) (m : Model) :
    List String → Option (List (String × AttrVal) × Model)
  | [] => some ([], m)
  | f :: rest =>
    match m.getattr ops f with
    | none => none
    | some (v, m1) => dictInsert f v (buildDict ops m1 rest)

/-- The in-place `d[f] /= alpha` of `to_dict` (lines 80-83) for one of the
names `'Q'` and `'D'`: because `d[f]` is the very array stored in the
model, the division rescales both the dict entry and the model's storage
(the `Q` attribute itself, respectively the `_D` cache). -/
def inplaceDiv (d : List (String × AttrVal)) (m : Model) (f : String)
    (fields : List String) (alpha : ℚ) : List (String × AttrVal) × Model :=
  if f ∈ fields then
    let d1 := d.map (fun kv => if kv.1 = f then (kv.1, kv.2.divBy alpha) else kv)
    let m1 :=
      if f = "Q" then { m with Q := m.Q.map (fun q => q / alpha) }
      else if f = "D" then
        { m with dSlot := m.dSlot.map (fun M => M.map (fun row => row.map (fun q => q / alpha))) }
      else m
    (d1, m1)
  else (d, m)

/-- `Model.to_dict` (lines 73-86) with `as_list` irrelevant to the claims
(it only changes the wire encoding).  `fields = []` plays the part of the
falsy `fields` argument (`None` or an empty collection), selecting the
`else` branch that exports fresh scaled copies. -/
def Model.toDict (ops : ExtOps) (m : Model) (fields : List String)
    (normalize : Bool) : Option (List (String × AttrVal) × Model) :=
  match (if normalize then (m.getStd ops).map (fun sm => ((vmax sm.1) ^ 2, sm.2))
         else some ((1 : ℚ), m)) with
  | none => none
  | some (alpha, m1) =>
    if fields.isEmpty = false then
      match buildDict ops m1 fields with
      | none => none
      | some (d, m2) =>
        if normalize then
          let dm3 := inplaceDiv d m2 "Q" fields alpha
          let dm4 := inplaceDiv dm3.1 dm3.2 "D" fields alpha
          some dm4
        else some (d, m2)
    else
      match m1.getD ops with
      | none => none
      | some (dD, m2) =>
        match m2.getStd ops with
        | none => none
        | some (stdv, m3) =>
          some ([("r", .vec m3.r), ("D", (AttrVal.mat dD).divBy alpha),
                 ("F", .mat m3.F), ("Q", (AttrVal.vec m3.Q).divBy alpha),
                 ("std", .vec stdv)], m3)

/-- Concrete external operations for witnesses: identity inverse and
identity square root. -/
def opsId : ExtOps := { inv := fun M => M, sqrt := fun q => q }

/-- A concrete model built from `Di` data, for witnesses. -/
def mEx : Model := Model.ofDataDi [1] [[1]] [2] [[4]]

/-- The state of `mEx` after its `D` property has been read once. -/
def mExD : Model := { mEx with dSlot := some [[4]], computes := mEx.computes + 1 }

/-- C1: assigning `D` clears the cached `Di` and `std` and assigning `Di`
clears the cached `D` and `std`; reading `D`, `Di` or `std` with the slot
set returns the cached value with no state change; reading with the slot
unset computes the value exactly once (the `computes` counter advances by
one per property computation), stores it in the slot, and a subsequent
read returns it with no further computation. -/
theorem C1_model_cache_protocol (ops : ExtOps) (m : Model) (v : Mat) :
    ((m.setD v).dSlot = some v ∧ (m.setD v).diSlot = none ∧
       (m.setD v).stdSlot = none)
    ∧ ((m.setDi v).diSlot = some v ∧ (m.setDi v).dSlot = none ∧
       (m.setDi v).stdSlot = none)
    ∧ (∀ d, m.dSlot = some d → m.getD ops = some (d, m))
    ∧ (∀ di, m.diSlot = some di → m.getDi ops = some (di, m))
    ∧ (∀ s, m.stdSlot = some s → m.getStd ops = some (s, m))
    ∧ (∀ d m', m.getD ops = some (d, m') →
         m'.dSlot = some d ∧ m'.getD ops = some (d, m') ∧
         (m.dSlot = none → m'.computes = m.computes + 1))
    ∧ (∀ di m', m.getDi ops = some (di, m') →
         m'.diSlot = some di ∧ m'.getDi ops = some (di, m') ∧
         (m.diSlot = none → m'.computes = m.computes + 1))
    ∧ (∀ s m', m.getStd ops = some (s, m') →
         m'.stdSlot = some s ∧ m'.getStd ops = some (s, m') ∧
         (m.stdSlot = none →
            m'.computes = m.computes + (if m.dSlot.isSome then 1 else 2))) := by
  refine ⟨⟨rfl, rfl, rfl⟩, ⟨rfl, rfl, rfl⟩, ?_, ?_, ?_, ?_, ?_, ?_⟩
  · intro d hd
    simp [Model.getD, hd]
  · intro di hdi
    simp [Model.getDi, hdi]
  · intro s hs
    simp [Model.getStd, hs]
  · intro d m' h
    cases hd : m.dSlot with
    | some d0 =>
      simp [Model.getD, hd] at h
      obtain ⟨rfl, rfl⟩ := h
      exact ⟨hd, by simp [Model.getD, hd], by intro hn; simp at hn⟩
    | none =>
      cases hdi : m.diSlot with
      | none => simp [Model.getD, hd, hdi] at h
      | some di =>
        simp [Model.getD, hd, hdi] at h
        obtain ⟨rfl, rfl⟩ := h
        exact ⟨rfl, by simp [Model.getD], fun _ => rfl⟩
  · intro di m' h
    cases hdi : m.diSlot with
    | some di0 =>
      simp [Model.getDi, hdi] at h
      obtain ⟨rfl, rfl⟩ := h
      exact ⟨hdi, by simp [Model.getDi, hdi], by intro hn; simp at hn⟩
    | none =>
      cases hd : m.dSlot with
      | none => simp [Model.getDi, hdi, hd] at h
      | some d =>
        simp [Model.getDi, hdi, hd] at h
        obtain ⟨rfl, rfl⟩ := h
        exact ⟨rfl, by simp [Model.getDi], fun _ => rfl⟩
  · intro s m' h
    cases hs : m.stdSlot with
    | some s0 =>
      simp [Model.getStd, hs] at h
      obtain ⟨rfl, rfl⟩ := h
      exact ⟨hs, by simp [Model.getStd, hs], by intro hn; simp at hn⟩
    | none =>
      cases hd : m.dSlot with
      | some d0 =>
        simp [Model.getStd, Model.getD, hs, hd] at h
        obtain ⟨rfl, rfl⟩ := h
        exact ⟨rfl, by simp [Model.getStd], by intro _; simp [hd]⟩
      | none =>
        cases hdi : m.diSlot with
        | none => simp [Model.getStd, Model.getD, hs, hd, hdi] at h
        | some di =>
          simp [Model.getStd, Model.getD, hs, hd, hdi] at h
          obtain ⟨rfl, rfl⟩ := h
          exact ⟨rfl, by simp [Model.getStd], by intro _; simp [hd]⟩

/-- Witness for C1: the cached-read and compute-once clauses applied to a
concrete model whose `D` is computed from its `Di` data. -/
theorem C1_witness :
    mExD.dSlot = some [[(4 : ℚ)]] ∧ mExD.getD opsId = some ([[(4 : ℚ)]], mExD) ∧
    (mEx.dSlot = none → mExD.computes = mEx.computes + 1) :=
  (C1_model_cache_protocol opsId mEx [[0]]).2.2.2.2.2.1 [[4]] mExD (by
    norm_num [mEx, mExD, opsId, Model.ofDataDi, Model.setDi, Model.getD,
              symmetrize, mscale, madd, vadd, vscale, transposeM])

/-- The function/sign table exactly as the specification words it:
sales with `≤` sets lower to `shares - value` and with `≥` upper to
`shares - value`; purchases with `≤` sets upper to `shares + value` and
with `≥` lower to `shares + value`; short sales set `-value` (lower for
`≤`, upper for `≥`); holdings set `value` (upper for `≤`, lower for
`≥`). -/
def specRawBounds (f : CFun) (s : CSign) (shares v : ℚ) :
    Option ℚ × Option ℚ :=
  match f, s with
  | .sales, .le => (some (shares - v), none)
  | .sales, .ge => (none, some (shares - v))
  | .purchases, .le => (none, some (shares + v))
  | .purchases, .ge => (some (shares + v), none)
  | .shortSales, .le => (some (-v), none)
  | .shortSales, .ge => (none, some (-v))
  | .holdings, .le => (none, some v)
  | .holdings, .ge => (some v, none)

/-- The trading-mode clamps exactly as the specification words them,
in the order `short_sales`, then `buy`, then `sell`: with `short_sales`
false a bound below `0` is raised to `0`; with `buy` false a bound above
the current `shares` is lowered to `shares`; with `sell` false a bound
below the current `shares` is raised to `shares`. -/
def specClamp (shortSales buy sell : Bool) (shares b : ℚ) : ℚ :=
  let b1 := if shortSales = false ∧ b < 0 then 0 else b
  let b2 := if buy = false ∧ b1 > shares then shares else b1
  if sell = false ∧ b2 < shares then shares else b2

theorem specRawBounds_eq_rawBounds (f : CFun) (s : CSign) (shares v : ℚ) :
    specRawBounds f s shares v = rawBounds f s shares v := by
  cases f <;> cases s <;> rfl

theorem specClamp_eq_applyClamps (ss b sl : Bool) (shares x : ℚ) :
    specClamp ss b sl shares x = applyClamps ss b sl shares x := by
  simp only [specClamp, applyClamps]
  cases ss <;> cases b <;> cases sl <;> simp <;> split_ifs <;>
    first
    | rfl
    | linarith

/-- C2: on a non-empty ticker list with the value already in shares
(`unit = 'shares'`), `apply_constraint` updates the row of each listed
ticker by deriving the raw bound from the specification's function/sign
table, passing it through the specification's three trading-mode clamps
in the order `short_sales`, `buy`, `sell`, and merging the result
conservatively into the existing bounds. -/
theorem C2_apply_constraint_formula (p : List PortRow) (tickers : List String)
    (f : CFun) (sg : CSign) (vals : List ℚ) (ss b sl : Bool)
    (i : Nat) (row : PortRow) (hrow : p.get? i = some row)
    (j : Nat) (hj : tickers.findIdx? (fun t => t = row.ticker) = some j)
    (v : ℚ) (hv : vals.getD j 0 = v) :
    (applyConstraint p tickers f sg vals .shares ss b sl).get? i =
      some { row with
        lower := match (specRawBounds f sg row.shares v).1 with
                 | some lb => row.lower.max (.fin (specClamp ss b sl row.shares lb))
                 | none => row.lower
        upper := match (specRawBounds f sg row.shares v).2 with
                 | some ub => row.upper.min (.fin (specClamp ss b sl row.shares ub))
                 | none => row.upper } := by
  have hne : tickers.isEmpty = false := by
    cases tickers with
    | nil => simp [List.findIdx?] at hj
    | cons a l => rfl
  unfold applyConstraint
  rw [hne]
  simp only [Bool.false_eq_true, if_false, List.get?_map, hrow, Option.map_some']
  unfold applyConstraintRow
  rw [hj]
  simp only [toShares, hv, specRawBounds_eq_rawBounds]
  rcases hb : rawBounds f sg row.shares v with ⟨lb, ub⟩
  cases lb <;> cases ub <;>
    simp [specClamp_eq_applyClamps]

/-- A concrete portfolio row for witnesses. -/
def rowA : PortRow :=
  { ticker := "A", shares := 100, lower := .negInf, upper := .posInf,
    close := 1, valuePct := 1 }

/-- Witness for C2: a holdings-`≤`-50 constraint on a 100-share position. -/
theorem C2_witness :
    (applyConstraint [rowA] ["A"] .holdings .le [50] .shares false true
        true).get? 0 =
      some { rowA with
        lower := match (specRawBounds .holdings .le rowA.shares 50).1 with
                 | some lb =>
                   rowA.lower.max (.fin (specClamp false true true rowA.shares lb))
                 | none => rowA.lower
        upper := match (specRawBounds .holdings .le rowA.shares 50).2 with
                 | some ub =>
                   rowA.upper.min (.fin (specClamp false true true rowA.shares ub))
                 | none => rowA.upper } :=
  C2_apply_constraint_formula [rowA] ["A"] .holdings .le [50] false true true
    0 rowA rfl 0 (by decide) 50 rfl

theorem XRat.le_rfl (a : XRat) : a.le a = true := by
  cases a <;> simp [XRat.le]

theorem XRat.le_max_self (a b : XRat) : a.le (a.max b) = true := by
  cases a <;> cases b <;> simp [XRat.le, XRat.max, le_max_left]

theorem XRat.min_le_self (a b : XRat) : (a.min b).le a = true := by
  cases a <;> cases b <;> simp [XRat.le, XRat.min, min_le_left]

theorem applyConstraintRow_congr (tickers : List String) (f : CFun)
    (sg : CSign) (vals : List ℚ) (u : CUnit) (ss b sl : Bool)
    (r1 r2 : PortRow) (ht : r1.ticker = r2.ticker) (hs : r1.shares = r2.shares)
    (hc : r1.close = r2.close) (hl : r1.lower = r2.lower)
    (hu : r1.upper = r2.upper) :
    (applyConstraintRow tickers f sg vals u ss b sl r1).lower =
      (applyConstraintRow tickers f sg vals u ss b sl r2).lower ∧
    (applyConstraintRow tickers f sg vals u ss b sl r1).upper =
      (applyConstraintRow tickers f sg vals u ss b sl r2).upper := by
  unfold applyConstraintRow
  rw [ht, hs, hc, hl, hu]
  rcases h : List.findIdx? (fun t => t = r2.ticker) tickers with _ | j <;>
    simp [h, hl, hu]

/-- C5: `apply_constraint` merges with `max` on the lower bound and `min`
on the upper bound (first conjunct: the new bounds are exactly a
conservative merge of the old ones with some computed bound), so the
stored lower bound never decreases and the stored upper bound never
increases (second conjunct); and the bounds produced by
`remove_constraints` followed by `apply_constraint` do not depend on the
previously stored bounds (third conjunct). -/
theorem C5_constraint_merge_and_reset (p q : List PortRow)
    (tickers : List String) (f : CFun) (sg : CSign) (vals : List ℚ)
    (u : CUnit) (ss b sl : Bool) :
    (∀ i row, p.get? i = some row →
       ∃ lb ub : Option ℚ,
         (applyConstraint p tickers f sg vals u ss b sl).get? i =
           some { row with
             lower := match lb with
                      | some l => row.lower.max (.fin l)
                      | none => row.lower
             upper := match ub with
                      | some u2 => row.upper.min (.fin u2)
                      | none => row.upper })
    ∧ (∀ i row row', p.get? i = some row →
        (applyConstraint p tickers f sg vals u ss b sl).get? i = some row' →
        row.lower.le row'.lower = true ∧ row'.upper.le row.upper = true)
    ∧ (∀ i rp rq rp' rq', p.get? i = some rp → q.get? i = some rq →
        rp.ticker = rq.ticker → rp.shares = rq.shares → rp.close = rq.close →
        rp.ticker ∈ tickers →
        (applyConstraint (removeConstraints p tickers) tickers f sg vals u
            ss b sl).get? i = some rp' →
        (applyConstraint (removeConstraints q tickers) tickers f sg vals u
            ss b sl).get? i = some rq' →
        rp'.lower = rq'.lower ∧ rp'.upper = rq'.upper) := by
  have hformula : ∀ i row, p.get? i = some row →
      ∃ lb ub : Option ℚ,
        (applyConstraint p tickers f sg vals u ss b sl).get? i =
          some { row with
            lower := match lb with
                     | some l => row.lower.max (.fin l)
                     | none => row.lower
            upper := match ub with
                     | some u2 => row.upper.min (.fin u2)
                     | none => row.upper } := by
    intro i row hrow
    unfold applyConstraint
    rcases he : tickers.isEmpty with _ | _
    · simp only [he, Bool.false_eq_true, if_false, List.get?_map, hrow,
        Option.map_some']
      unfold applyConstraintRow
      rcases hidx : List.findIdx? (fun t => t = row.ticker) tickers with _ | j
      · exact ⟨none, none, by simp⟩
      · exact ⟨(rawBounds f sg row.shares
            (toShares u row.shares row.close (vals.getD j 0))).1.map
              (applyClamps ss b sl row.shares),
          (rawBounds f sg row.shares
            (toShares u row.shares row.close (vals.getD j 0))).2.map
              (applyClamps ss b sl row.shares), by simp⟩
    · refine ⟨none, none, ?_⟩
      simp only [he, if_true]
      rw [hrow]
  refine ⟨hformula, ?_, ?_⟩
  · intro i row row' hrow hrow'
    obtain ⟨lb, ub, heq⟩ := hformula i row hrow
    rw [heq] at hrow'
    cases hrow'
    constructor
    · cases lb with
      | none => exact XRat.le_rfl row.lower
      | some l => exact XRat.le_max_self row.lower (.fin l)
    · cases ub with
      | none => exact XRat.le_rfl row.upper
      | some u2 => exact XRat.min_le_self row.upper (.fin u2)
  · intro i rp rq rp' rq' hp hq ht hs hc hmem hp' hq'
    have hne : tickers.isEmpty = false := by
      cases tickers with
      | nil => cases hmem
      | cons a l => rfl
    unfold applyConstraint removeConstraints at hp' hq'
    rw [hne] at hp' hq'
    simp only [Bool.false_eq_true, if_false, List.get?_map, hp, hq,
      Option.map_some'] at hp' hq'
    rw [if_pos hmem] at hp'
    rw [if_pos (ht ▸ hmem)] at hq'
    cases hp'
    cases hq'
    exact applyConstraintRow_congr tickers f sg vals u ss b sl _ _ ht hs hc
      rfl rfl

/-- Witness for C5: the merge-formula conjunct applied to a concrete
one-row portfolio. -/
theorem C5_witness :
    ∃ lb ub : Option ℚ,
      (applyConstraint [rowA] ["A"] .holdings .le [50] .shares true true
          true).get? 0 =
        some { rowA with
          lower := match lb with
                   | some l => rowA.lower.max (.fin l)
                   | none => rowA.lower
          upper := match ub with
                   | some u2 => rowA.upper.min (.fin u2)
                   | none => rowA.upper } :=
  (C5_constraint_merge_and_reset [rowA] [rowA] ["A"] .holdings .le [50]
    .shares true true true).1 0 rowA rfl

theorem takeWhile_char (pr : ℚ → Bool) (xs : List ℚ) :
    (∀ j a, j < (xs.takeWhile pr).length → xs.get? j = some a → pr a = true)
    ∧ (∀ a, xs.get? (xs.takeWhile pr).length = some a → pr a = false) := by
  induction xs with
  | nil =>
    constructor
    · intro j a h
      simp at h
    · intro a h
      simp at h
  | cons x rest ih =>
    by_cases hx : pr x
    · constructor
      · intro j a hj ha
        cases j with
        | zero =>
          simp at ha
          subst ha
          exact hx
        | succ j =>
          simp only [List.takeWhile_cons, hx, if_true, List.length_cons,
            Nat.succ_lt_succ_iff] at hj
          exact ih.1 j a hj ha
      · intro a ha
        simp only [List.takeWhile_cons, hx, if_true, List.length_cons] at ha
        exact ih.2 a ha
    · constructor
      · intro j a hj ha
        simp [List.takeWhile_cons, hx] at hj
      · intro a ha
        simp only [List.takeWhile_cons, hx, if_false] at ha
        simp at ha
        subst ha
        simp [hx]
  
theorem takeWhile_len_le (pr : ℚ → Bool) (xs : List ℚ) :
    (xs.takeWhile pr).length ≤ xs.length := by
  induction xs with
  | nil => simp
  | cons x rest ih =>
    by_cases hx : pr x <;> simp [List.takeWhile_cons, hx] <;> omega

theorem get?_zero_headI (xs : List ℚ) (hne : xs ≠ []) :
    xs.get? 0 = some xs.headI := by
  cases xs with
  | nil => cases hne rfl
  | cons x rest => rfl

theorem sorted_le_getLast (xs : List ℚ) (hs : List.Sorted (· ≤ ·) xs)
    (hne : xs ≠ []) (j : Nat) (a : ℚ) (ha : xs.get? j = some a) :
    a ≤ xs.getLast hne := by
  have hj : j < xs.length := by
    by_contra hcon
    push_neg at hcon
    rw [List.get?_eq_none.mpr hcon] at ha
    cases ha
  have hav : xs.get ⟨j, hj⟩ = a := by
    rw [List.get?_eq_get hj] at ha
    injection ha
  rw [List.getLast_eq_get]
  rcases Nat.lt_or_ge j (xs.length - 1) with hlt | hge
  · exact hav ▸ hs.rel_get_of_lt hlt
  · have hjeq : j = xs.length - 1 := by omega
    subst hjeq
    exact le_of_eq hav.symm

theorem get?_getLast (xs : List ℚ) (hne : xs ≠ []) :
    xs.get? (xs.length - 1) = some (xs.getLast hne) := by
  have hlen : 0 < xs.length := List.length_pos.mpr hne
  exact (List.get?_eq_get (by omega)).trans (by rw [List.getLast_eq_get])

/-- Counterexample to C3: on the sorted two-point column `[0, 1]`, a value
exactly equal to the last entry yields the bracketing pair
`(row 0, row 1)`, not `(last_row, None)` as the claim states
(`searchsorted` with `side='left'` lands strictly before the end). -/
theorem C3_counterexample :
    List.Sorted (· ≤ ·) [(0 : ℚ), 1]
    ∧ locateValue 1 [(0 : ℚ), 1] = (some 0, some 1)
    ∧ locateValue 1 [(0 : ℚ), 1] ≠ (some 1, none) := by
  refine ⟨by norm_num [List.sorted_cons], by decide, by decide⟩

/-- C3 (amended): for a non-empty frontier column sorted ascending,
`_locate_value` returns `(None, first_row)` at a value equal to the first
entry or strictly below it, `(last_row, None)` at a value strictly past
the last entry, and at any value with `first < v ≤ last` the bracketing
pair of consecutive row indices `(i - 1, i)` with the left entry strictly
below `v` and the right entry at or above `v`.  In particular at a value
exactly equal to the last entry the second component is never `None`:
the amendment replaces the claimed `(last_row, None)` at the last entry's
exact value by the bracketing-pair (or, if all entries coincide,
first-element) result. -/
theorem C3_locate_value (xs : List ℚ) (v : ℚ)
    (hs : List.Sorted (· ≤ ·) xs) (hne : xs ≠ []) :
    (v = xs.headI → locateValue v xs = (none, some 0))
    ∧ (v < xs.headI → locateValue v xs = (none, some 0))
    ∧ (xs.getLast hne < v → locateValue v xs = (some (xs.length - 1), none))
    ∧ (xs.headI < v → v ≤ xs.getLast hne →
        ∃ i, 1 ≤ i ∧ i < xs.length ∧
          locateValue v xs = (some (i - 1), some i)
          ∧ (∀ a, xs.get? (i - 1) = some a → a < v)
          ∧ (∀ a, xs.get? i = some a → v ≤ a))
    ∧ (v = xs.getLast hne → (locateValue v xs).2 ≠ none) := by
  have hlen : 0 < xs.length := List.length_pos.mpr hne
  have hle : searchsortedLeft xs v ≤ xs.length := takeWhile_len_le _ xs
  have hchar := takeWhile_char (fun x => decide (x < v)) xs
  have fact0 : v ≤ xs.headI → searchsortedLeft xs v = 0 := by
    intro hv
    by_contra h0
    have h1 := hchar.1 0 xs.headI (by
      simp only [searchsortedLeft] at h0 ⊢
      omega) (get?_zero_headI xs hne)
    simp only [decide_eq_true_eq] at h1
    exact absurd hv (not_le.mpr h1)
  have fact1 : xs.headI < v → searchsortedLeft xs v ≠ 0 := by
    intro hv h0
    have h1 := hchar.2 xs.headI (by
      simp only [searchsortedLeft] at h0
      rw [h0]
      exact get?_zero_headI xs hne)
    simp only [decide_eq_false_iff_not] at h1
    exact h1 hv
  have fact2 : v ≤ xs.getLast hne → searchsortedLeft xs v < xs.length := by
    intro hv
    rcases Nat.lt_or_ge (searchsortedLeft xs v) xs.length with h | h
    · exact h
    · exfalso
      have heq : searchsortedLeft xs v = xs.length := by omega
      have h1 := hchar.1 (xs.length - 1) (xs.getLast hne) (by
        simp only [searchsortedLeft] at heq ⊢
        omega) (get?_getLast xs hne)
      simp only [decide_eq_true_eq] at h1
      exact absurd hv (not_le.mpr h1)
  have fact3 : xs.getLast hne < v → searchsortedLeft xs v = xs.length := by
    intro hv
    rcases Nat.lt_or_ge (searchsortedLeft xs v) xs.length with h | h
    · exfalso
      obtain ⟨a, ha⟩ : ∃ a, xs.get? (searchsortedLeft xs v) = some a :=
        ⟨xs.get ⟨searchsortedLeft xs v, h⟩, List.get?_eq_get h⟩
      have h1 := hchar.2 a (by
        simp only [searchsortedLeft] at ha ⊢
        exact ha)
      simp only [decide_eq_false_iff_not] at h1
      exact h1 (lt_of_le_of_lt (sorted_le_getLast xs hs hne _ a ha) hv)
    · omega
  refine ⟨?_, ?_, ?_, ?_, ?_⟩
  · intro hv
    have h0 := fact0 (le_of_eq hv)
    simp only [locateValue]
    rw [h0, if_neg (by omega), if_pos rfl]
  · intro hv
    have h0 := fact0 (le_of_lt hv)
    simp only [locateValue]
    rw [h0, if_neg (by omega), if_pos rfl]
  · intro hv
    simp only [locateValue]
    rw [fact3 hv, if_pos rfl]
  · intro hv1 hv2
    have h0 := fact1 hv1
    have h1 := fact2 hv2
    refine ⟨searchsortedLeft xs v, by omega, h1, ?_, ?_, ?_⟩
    · simp only [locateValue]
      rw [if_neg (by omega), if_neg (by omega)]
    · intro a ha
      have h2 := hchar.1 (searchsortedLeft xs v - 1) a (by
        simp only [searchsortedLeft] at h0 ⊢
        omega) ha
      simpa using h2
    · intro a ha
      have h2 := hchar.2 a ha
      simp only [decide_eq_false_iff_not] at h2
      exact le_of_not_lt h2
  · intro hv
    have h1 := fact2 (le_of_eq hv)
    by_cases h0 : searchsortedLeft xs v = 0
    · simp only [locateValue]
      rw [h0, if_neg (by omega), if_pos rfl]
      simp
    · simp only [locateValue]
      rw [if_neg (by omega), if_neg h0]
      simp

/-- Witness for C3: the bracketing conjunct evaluated on the concrete
sorted column `[0, 1]` at `v = 1`. -/
theorem C3_witness :
    ∃ i, 1 ≤ i ∧ i < ([(0 : ℚ), 1]).length ∧
      locateValue 1 [(0 : ℚ), 1] = (some (i - 1), some i)
      ∧ (∀ a, ([(0 : ℚ), 1]).get? (i - 1) = some a → a < 1)
      ∧ (∀ a, ([(0 : ℚ), 1]).get? i = some a → (1 : ℚ) ≤ a) :=
  (C3_locate_value [(0 : ℚ), 1] 1 (by norm_num [List.sorted_cons])
    (by decide)).2.2.2.1 (by decide) (by decide)

/-- A concrete portfolio table and state for witnesses: prices present,
one model range stored. -/
def ptEx : PortTable := { rows := [rowA], hasClose := true }

/-- A concrete `Portfolio` state for witnesses. -/
def sEx : PortState :=
  { portfolio := some ptEx, models := [("1mo", mEx)],
    modelWeights := [("1mo", 1)], modelMethod := "linear", frontier := none,
    frontierQueryParams := none, frontierMethod := "none" }

/-- C6: with prices and models present, an empty solver frontier makes
`retrieve_frontier` raise a `ValueError` (a domain error, distinguishable
by construction from the `AssertionError` that precondition violations
raise) after invalidating the frontier state: `has_frontier()` is false,
the saved query parameters are reset to the empty dict, and the frontier
provenance is `'none'`. -/
theorem C6_empty_frontier_invalidates (ops : ExtOps) (s : PortState)
    (query : Query) (hp : s.hasPrices = true) (hm : s.hasModels = true) :
    (∃ msg, retrieveFrontier ops s query [] =
        some (s.invalidateFrontier, some (.valueError msg)))
    ∧ s.invalidateFrontier.hasFrontier = false
    ∧ s.invalidateFrontier.frontierQueryParams = none
    ∧ s.invalidateFrontier.frontierMethod = "none"
    ∧ (∀ s' q' sol, s'.hasPrices = false ∨ s'.hasModels = false →
        ∃ amsg, retrieveFrontier ops s' q' sol =
          some (s', some (.assertionError amsg)))
    ∧ (∀ m1 m2, PErr.valueError m1 ≠ PErr.assertionError m2) := by
  refine ⟨⟨"Could not calculate optimal frontier; constraints likely make the problem infeasible.", ?_⟩, rfl, rfl, rfl, ?_, ?_⟩
  · simp [retrieveFrontier, hp, hm]
  · intro s' q' sol h
    rcases h with h | h <;>
      exact ⟨"Either prices or models are missing",
        by simp [retrieveFrontier, h]⟩
  · intro m1 m2 h
    cases h

/-- Witness for C6 on the concrete state `sEx`. -/
theorem C6_witness :
    (∃ msg, retrieveFrontier opsId sEx [] [] =
        some (sEx.invalidateFrontier, some (.valueError msg)))
    ∧ sEx.invalidateFrontier.hasFrontier = false
    ∧ sEx.invalidateFrontier.frontierQueryParams = none
    ∧ sEx.invalidateFrontier.frontierMethod = "none"
    ∧ (∀ s' q' sol, s'.hasPrices = false ∨ s'.hasModels = false →
        ∃ amsg, retrieveFrontier opsId s' q' sol =
          some (s', some (.assertionError amsg)))
    ∧ (∀ m1 m2, PErr.valueError m1 ≠ PErr.assertionError m2) :=
  C6_empty_frontier_invalidates opsId sEx [] (by decide) (by decide)

theorem frontierValues_nil_of_no_optimal (ops : ExtOps) (model : Model)
    (sol : List SolPoint) (hopt : ∀ p ∈ sol, p.status ≠ "optimal") :
    frontierValues ops model sol = some [] := by
  induction sol with
  | nil => rfl
  | cons p rest ih =>
    have hp := hopt p (List.mem_cons_self p rest)
    simp only [frontierValues, if_neg hp]
    exact ih (fun q hq => hopt q (List.mem_cons_of_mem p hq))

/-- C4 (amended): `retrieve_frontier` raises the infeasibility error only
when the RAW frontier list in the solver response is empty.  A non-empty
response in which zero points have status `'optimal'` is not treated as
the infeasibility case: no error is raised, every point is filtered out,
and an EMPTY frontier table is stored with provenance `'optimal'` and the
query parameters saved. -/
theorem C4_zero_optimal_stores_empty (ops : ExtOps) (s : PortState)
    (q : Query) (sol : List SolPoint) (hp : s.hasPrices = true)
    (hm : s.hasModels = true) (hsol : sol ≠ [])
    (hopt : ∀ p ∈ sol, p.status ≠ "optimal")
    (model : Model) (hmodel : getModel ops s = some model) :
    retrieveFrontier ops s q sol =
      some ({ s with frontier := some [], frontierQueryParams := some q,
                     frontierMethod := "optimal" }, none) := by
  have hlen : sol.length ≠ 0 := fun h => hsol (List.length_eq_zero.mp h)
  simp only [retrieveFrontier, hp, hm, Bool.and_self, Bool.not_true,
    Bool.false_eq_true, if_false, if_neg hlen, hmodel,
    frontierValues_nil_of_no_optimal ops model sol hopt]

/-- Witness for C4's amended theorem: a one-point all-infeasible response
on the concrete state `sEx`. -/
theorem C4_witness :
    retrieveFrontier opsId sEx []
        [{ mu := 1, status := "infeasible", x := [1] }] =
      some ({ sEx with frontier := some [], frontierQueryParams := some [],
                       frontierMethod := "optimal" }, none) :=
  C4_zero_optimal_stores_empty opsId sEx []
    [{ mu := 1, status := "infeasible", x := [1] }] (by decide) (by decide)
    (by decide) (by decide) (Model.ofDataD [1] [[1]] [2] [[4]])
    (by norm_num [getModel, sEx, PortState.hasModels, lookupModels,
      weightedDs, mEx, Model.ofDataDi, Model.setDi, Model.ofDataD,
      Model.setD, Model.getD, opsId, symmetrize, mscale, madd, vadd, vscale,
      transposeM, sumVecs, sumMats, List.lookup])

/-- Counterexample to C4 as stated: on the concrete state `sEx`, a
non-empty solver response whose single point is non-optimal does NOT
raise; the returned error component is `none` and an empty frontier table
is stored, so `has_frontier()` is true afterwards with provenance
`'optimal'`. -/
theorem C4_counterexample :
    retrieveFrontier opsId sEx []
        [{ mu := 1, status := "infeasible", x := [1] }] =
      some ({ sEx with frontier := some [], frontierQueryParams := some [],
                       frontierMethod := "optimal" }, none)
    ∧ ({ sEx with frontier := some ([] : List FrontierRow),
                  frontierQueryParams := some ([] : Query),
                  frontierMethod := "optimal" } : PortState).hasFrontier
        = true := by
  constructor
  · norm_num [retrieveFrontier, sEx, ptEx, PortState.hasPrices,
      PortState.hasModels, getModel, lookupModels, weightedDs, mEx,
      Model.ofDataDi, Model.setDi, Model.ofDataD, Model.setD, Model.getD,
      opsId, symmetrize, mscale, madd, vadd, vscale, transposeM, sumVecs,
      sumMats, List.lookup, frontierValues]
    rw [if_neg (show ¬("infeasible" = "optimal") by decide)]
  · rfl

theorem vscale_sum (c : ℚ) (x : Vec) : (vscale c x).sum = c * x.sum := by
  induction x with
  | nil => simp [vscale]
  | cons a t ih =>
    simp only [vscale, List.map_cons, List.sum_cons] at ih ⊢
    rw [ih]
    ring

theorem dotp_vscale_left (c : ℚ) (a b : Vec) :
    dotp (vscale c a) b = c * dotp a b := by
  induction a generalizing b with
  | nil => simp [dotp, vscale]
  | cons a0 t ih =>
    cases b with
    | nil => simp [dotp, vscale]
    | cons b0 u =>
      simp [dotp, vscale] at ih ⊢
      rw [ih]
      ring

theorem dotp_vscale_right (c : ℚ) (a b : Vec) :
    dotp a (vscale c b) = c * dotp a b := by
  induction a generalizing b with
  | nil => simp [dotp, vscale]
  | cons a0 t ih =>
    cases b with
    | nil => simp [dotp, vscale]
    | cons b0 u =>
      simp [dotp, vscale] at ih ⊢
      rw [ih]
      ring

theorem vmul_vscale (Q : Vec) (c : ℚ) (x : Vec) :
    vmul Q (vscale c x) = vscale c (vmul Q x) := by
  induction Q generalizing x with
  | nil => simp [vmul, vscale]
  | cons q t ih =>
    cases x with
    | nil => simp [vmul, vscale]
    | cons x0 u =>
      simp [vmul, vscale] at ih ⊢
      refine ⟨by ring, ih u⟩

theorem matvec_vscale (A : Mat) (c : ℚ) (x : Vec) :
    matvec A (vscale c x) = vscale c (matvec A x) := by
  induction A with
  | nil => simp [matvec, vscale]
  | cons r rows ih =>
    simp [matvec, vscale] at ih ⊢
    refine ⟨dotp_vscale_right c r x, ?_⟩
    have h := ih
    simpa [matvec, vscale] using h

/-- C7: `return_and_variance` is invariant under uniform positive
rescaling of the allocation `x`, because both `mu` and `std` are divided
by the sum of `x`; the external square root is assumed positively
homogeneous (`sqrt (c² t) = c sqrt t` for `c > 0`), as the real square
root is. -/
theorem C7_return_and_variance_scaling (ops : ExtOps)
    (hsqrt : ∀ c t : ℚ, 0 < c → ops.sqrt (c ^ 2 * t) = c * ops.sqrt t)
    (x : Vec) (m : Model) (c : ℚ) (hc : 0 < c) (hsum : x.sum ≠ 0)
    (mu std : ℚ) (m' : Model)
    (h : returnAndVariance ops x m = some (mu, std, m')) :
    returnAndVariance ops (vscale c x) m = some (mu, std, m') := by
  unfold returnAndVariance at h ⊢
  cases hd : m.getD ops with
  | none =>
    rw [hd] at h
    simp at h
  | some dm =>
    rcases dm with ⟨d, m1⟩
    rw [hd] at h
    simp only [Option.some.injEq, Prod.mk.injEq] at h ⊢
    obtain ⟨h1, h2, h3⟩ := h
    refine ⟨?_, ?_, h3⟩
    · rw [dotp_vscale_left, vscale_sum,
        mul_div_mul_left _ _ (ne_of_gt hc), h1]
    · rw [matvec_vscale, vmul_vscale, dotp_vscale_left, dotp_vscale_right,
        matvec_vscale, dotp_vscale_left, dotp_vscale_right, vscale_sum]
      have hq : c * (c * dotp (vmul m1.Q x) x) +
          c * (c * dotp (matvec d (matvec (transposeM m1.F) x))
            (matvec (transposeM m1.F) x)) =
          c ^ 2 * (dotp (vmul m1.Q x) x +
            dotp (matvec d (matvec (transposeM m1.F) x))
              (matvec (transposeM m1.F) x)) := by ring
      rw [hq, hsqrt c _ hc, mul_div_mul_left _ _ (ne_of_gt hc), h2]

/-- External operations whose square root is constantly zero (positively
homogeneous), for the C7 witness. -/
def opsZ : ExtOps := { inv := fun M => M, sqrt := fun _ => 0 }

/-- A concrete two-asset one-factor model for the C7 witness. -/
def mQ : Model := Model.ofDataD [1, 1] [[1], [1]] [0, 0] [[0]]

/-- Witness for C7: doubling a concrete two-asset allocation. -/
theorem C7_witness :
    returnAndVariance opsZ (vscale 2 [1, 1]) mQ =
      returnAndVariance opsZ [1, 1] mQ := by
  have h : returnAndVariance opsZ [1, 1] mQ =
      some (1, 0, mQ) := by
    norm_num [returnAndVariance, mQ, Model.ofDataD, Model.setD, Model.getD,
      opsZ, dotp, vmul, matvec, transposeM]
  rw [C7_return_and_variance_scaling opsZ
    (by intro c t hc; simp [opsZ]) [1, 1] mQ 2 (by norm_num)
    (by norm_num) 1 0 mQ h, h]

theorem remapRows_spec (ops : ExtOps) (model : Model)
    (rows rows' : List FrontierRow)
    (h : remapRows ops model rows = some rows') :
    rows'.length = rows.length
    ∧ ∀ i r r', rows.get? i = some r → rows'.get? i = some r' →
        r'.x = r.x
        ∧ ∃ mm, returnAndVariance ops r.x model = some (r'.mu, r'.std, mm) := by
  induction rows generalizing rows' with
  | nil =>
    simp only [remapRows, Option.some.injEq] at h
    subst h
    exact ⟨rfl, by intro i r r' hr; simp at hr⟩
  | cons r rest ih =>
    simp only [remapRows] at h
    cases hrv : returnAndVariance ops r.x model with
    | none => rw [hrv] at h; cases h
    | some vals =>
      rcases vals with ⟨mu, std, mm⟩
      rw [hrv] at h
      cases hrest : remapRows ops model rest with
      | none => rw [hrest] at h; cases h
      | some l =>
        rw [hrest] at h
        simp only [Option.map_some', Option.some.injEq] at h
        subst h
        obtain ⟨hlen, hpt⟩ := ih l hrest
        constructor
        · simp [hlen]
        · intro i rr rr' hr hr'
          cases i with
          | zero =>
            simp only [List.get?] at hr hr'
            injection hr with hr
            injection hr' with hr'
            subst hr
            subst hr'
            exact ⟨rfl, mm, hrv⟩
          | succ i =>
            simp only [List.get?] at hr hr'
            exact hpt i rr rr' hr hr'

/-- C8: the frontier provenance state machine.  (a) A `retrieve_frontier`
call that returns without raising stores the frontier with provenance
`'optimal'` and saves the query parameters.  (b) `set_models_weights`
while a frontier is present recomputes every row's `mu` and `std` from the
row's stored `x` under the model rebuilt with the new normalized weights
(no solver interaction: the recomputed values come from
`return_and_variance` alone), keeps each row's `x` and the saved query
parameters unchanged, and sets the provenance to `'approximate'`.
(c) An empty solve raises and resets the provenance to `'none'`,
discarding the frontier and the query parameters. -/
theorem C8_provenance_state_machine (ops : ExtOps) :
    (∀ s q sol s', retrieveFrontier ops s q sol = some (s', none) →
        s'.frontierMethod = "optimal" ∧ s'.frontierQueryParams = some q
        ∧ s'.hasFrontier = true)
    ∧ (∀ s w rows s', s.frontier = some rows →
        setModelsWeights ops s w = some (s', none) →
        s'.frontierQueryParams = s.frontierQueryParams
        ∧ s'.frontierMethod = "approximate"
        ∧ s'.modelWeights = normalizeWeights w
        ∧ ∃ model,
            getModel ops { s with modelWeights := normalizeWeights w } =
              some model
            ∧ ∃ rows', s'.frontier = some rows'
              ∧ rows'.length = rows.length
              ∧ ∀ i r r', rows.get? i = some r → rows'.get? i = some r' →
                  r'.x = r.x
                  ∧ ∃ mm, returnAndVariance ops r.x model =
                      some (r'.mu, r'.std, mm))
    ∧ (∀ s q, s.hasPrices = true → s.hasModels = true →
        ∃ e, retrieveFrontier ops s q [] =
            some (s.invalidateFrontier, some (.valueError e))
          ∧ s.invalidateFrontier.frontierMethod = "none"
          ∧ s.invalidateFrontier.frontier = none
          ∧ s.invalidateFrontier.frontierQueryParams = none) := by
  refine ⟨?_, ?_, ?_⟩
  · intro s q sol s' h
    unfold retrieveFrontier at h
    split at h
    · simp at h
    · split at h
      · simp at h
      · split at h
        · cases h
        · split at h
          · cases h
          · simp only [Option.some.injEq, Prod.mk.injEq] at h
            obtain ⟨hs', -⟩ := h
            subst hs'
            exact ⟨rfl, rfl, rfl⟩
  · intro s w rows s' hrows h
    unfold setModelsWeights at h
    split at h
    · simp at h
    · split at h
      · simp at h
      · split at h
        · simp at h
        · rw [if_pos (by simp [PortState.hasFrontier, hrows])] at h
          rw [hrows] at h
          have hstate : ({ portfolio := s.portfolio, models := s.models,
                             modelWeights := normalizeWeights w,
                             modelMethod := s.modelMethod,
                             frontier := some rows,
                             frontierQueryParams := s.frontierQueryParams,
                             frontierMethod := s.frontierMethod } : PortState) =
              { s with modelWeights := normalizeWeights w } := by
            rw [hrows]
          rw [hstate] at h
          simp only [] at h
          cases hg : getModel ops { s with modelWeights := normalizeWeights w } with
          | none => rw [hg] at h; cases h
          | some model =>
            rw [hg] at h
            simp only [] at h
            cases hrm : remapRows ops model rows with
            | none => rw [hrm] at h; cases h
            | some rows2 =>
              rw [hrm] at h
              simp only [] at h
              simp only [Option.some.injEq, Prod.mk.injEq] at h
              obtain ⟨hs', -⟩ := h
              subst hs'
              obtain ⟨hlen, hpt⟩ := remapRows_spec ops model rows rows2 hrm
              exact ⟨rfl, rfl, rfl, model, rfl, rows2, rfl, hlen, hpt⟩
  · intro s q hp hm
    exact ⟨"Could not calculate optimal frontier; constraints likely make the problem infeasible.",
      by simp [retrieveFrontier, hp, hm], rfl, rfl, rfl⟩

/-- A concrete frontier row for the C8 witness. -/
def fr1 : FrontierRow := { mu := 1, std := 0, x := [1, 1] }

/-- A concrete state holding a frontier with provenance `'optimal'`. -/
def s8 : PortState :=
  { portfolio := some ptEx, models := [("1mo", mQ)],
    modelWeights := [("1mo", 1)], modelMethod := "linear",
    frontier := some [fr1], frontierQueryParams := some [("cashflow", 0)],
    frontierMethod := "optimal" }

/-- The state after `set_models_weights` with weight 2 on the only range. -/
def s8sw : PortState :=
  { portfolio := some ptEx, models := [("1mo", mQ)],
    modelWeights := [("1mo", 1)], modelMethod := "linear",
    frontier := some [fr1], frontierQueryParams := some [("cashflow", 0)],
    frontierMethod := "approximate" }

/-- Witness for C8: the weight-change conjunct applied to the concrete
run `set_models_weights s8 {"1mo": 2}`. -/
theorem C8_witness :
    s8sw.frontierQueryParams = s8.frontierQueryParams
    ∧ s8sw.frontierMethod = "approximate"
    ∧ s8sw.modelWeights = normalizeWeights [("1mo", 2)]
    ∧ ∃ model,
        getModel opsZ { s8 with modelWeights := normalizeWeights [("1mo", 2)] } =
          some model
        ∧ ∃ rows', s8sw.frontier = some rows'
          ∧ rows'.length = ([fr1] : List FrontierRow).length
          ∧ ∀ i r r', ([fr1] : List FrontierRow).get? i = some r →
              rows'.get? i = some r' →
              r'.x = r.x
              ∧ ∃ mm, returnAndVariance opsZ r.x model =
                  some (r'.mu, r'.std, mm) :=
  (C8_provenance_state_machine opsZ).2.1 s8 [("1mo", 2)] [fr1] s8sw rfl
    (by norm_num [setModelsWeights, s8, s8sw, ptEx, PortState.hasModels,
      PortState.hasFrontier, keysEqAsSets, normalizeWeights, getModel,
      lookupModels, weightedDs, mQ, Model.ofDataD, Model.setD, Model.getD,
      opsZ, vscale, mscale, vadd, madd, sumVecs, sumMats, remapRows,
      returnAndVariance, dotp, vmul, matvec, transposeM, fr1, List.lookup,
      List.all])

/-- C9: with a resolved target return and method `'exact'`, a follow-up
solver response whose status is not `'optimal'` does not raise: the
result equals the `'approximate'` method's result for the same `mu`
(which ignores the solver response entirely — a single local fallback,
not a retry), and with a frontier present the call returns a value. -/
theorem C9_exact_fallback (ops : ExtOps) (s : PortState) (mu : ℚ)
    (recs recs2 : ExactResp) (hst : recs.status ≠ "optimal") :
    retrieveRecommendation ops s (some mu) "exact" recs =
      retrieveRecommendation ops s (some mu) "approximate" recs2
    ∧ (∀ front, s.frontier = some front →
        (retrieveRecommendation ops s (some mu) "exact" recs).isSome
          = true) := by
  cases hf : s.frontier with
  | none =>
    constructor
    · simp [retrieveRecommendation, PortState.hasFrontier, hf]
    · intro front h
      simp at h
  | some front =>
    have hasf : ¬(s.hasFrontier = false) := by
      simp [PortState.hasFrontier, hf]
    constructor
    · unfold retrieveRecommendation
      rw [hf]
      simp [if_neg hasf, if_neg hst]
    · intro front2 hf2
      unfold retrieveRecommendation
      rw [hf]
      simp [if_neg hasf, if_neg hst]

/-- Witness for C9: a non-optimal follow-up response on the concrete
state `s8`. -/
theorem C9_witness :
    retrieveRecommendation opsZ s8 (some 1) "exact"
        { status := "infeasible", x := [1, 1] } =
      retrieveRecommendation opsZ s8 (some 1) "approximate"
        { status := "optimal", x := [] }
    ∧ (∀ front, s8.frontier = some front →
        (retrieveRecommendation opsZ s8 (some 1) "exact"
            { status := "infeasible", x := [1, 1] }).isSome = true) :=
  C9_exact_fallback opsZ s8 1 { status := "infeasible", x := [1, 1] }
    { status := "optimal", x := [] } (by decide)

/-- The value the `D` property of a model would return (regardless of
which slot is populated). -/
def dval (ops : ExtOps) (m : Model) : Option Mat :=
  (m.getD ops).map Prod.fst

theorem getD_preserves (ops : ExtOps) (m : Model) (d : Mat) (m1 : Model)
    (h : m.getD ops = some (d, m1)) :
    m1.r = m.r ∧ m1.F = m.F ∧ m1.Q = m.Q ∧ m1.stdSlot = m.stdSlot
    ∧ m1.dSlot = some d ∧ dval ops m = some d ∧ dval ops m1 = some d := by
  have hdv : dval ops m = some d := by rw [dval, h, Option.map_some']
  unfold Model.getD at h
  cases hd : m.dSlot with
  | some d0 =>
    rw [hd] at h
    simp only [Option.some.injEq, Prod.mk.injEq] at h
    obtain ⟨rfl, rfl⟩ := h
    exact ⟨rfl, rfl, rfl, rfl, hd, hdv, hdv⟩
  | none =>
    cases hdi : m.diSlot with
    | none => rw [hd, hdi] at h; cases h
    | some di =>
      rw [hd, hdi] at h
      simp only [Option.some.injEq, Prod.mk.injEq] at h
      obtain ⟨rfl, rfl⟩ := h
      refine ⟨rfl, rfl, rfl, rfl, rfl, hdv, ?_⟩
      simp [dval, Model.getD]

theorem getDi_preserves (ops : ExtOps) (m : Model) (di : Mat) (m1 : Model)
    (h : m.getDi ops = some (di, m1)) :
    m1.r = m.r ∧ m1.F = m.F ∧ m1.Q = m.Q ∧ m1.stdSlot = m.stdSlot
    ∧ m1.dSlot = m.dSlot ∧ dval ops m1 = dval ops m := by
  unfold Model.getDi at h
  cases hdi : m.diSlot with
  | some di0 =>
    rw [hdi] at h
    simp only [Option.some.injEq, Prod.mk.injEq] at h
    obtain ⟨rfl, rfl⟩ := h
    exact ⟨rfl, rfl, rfl, rfl, rfl, rfl⟩
  | none =>
    cases hd : m.dSlot with
    | none => rw [hdi, hd] at h; cases h
    | some d0 =>
      rw [hdi, hd] at h
      simp only [Option.some.injEq, Prod.mk.injEq] at h
      obtain ⟨rfl, rfl⟩ := h
      exact ⟨rfl, rfl, rfl, rfl, rfl, by simp [dval, Model.getD, hd]⟩

theorem getStd_preserves (ops : ExtOps) (m : Model) (s : Vec) (m1 : Model)
    (h : m.getStd ops = some (s, m1)) :
    m1.r = m.r ∧ m1.F = m.F ∧ m1.Q = m.Q ∧ m1.stdSlot = some s
    ∧ (∀ dd, m.dSlot = some dd → m1.dSlot = some dd)
    ∧ dval ops m1 = dval ops m := by
  unfold Model.getStd at h
  cases hs : m.stdSlot with
  | some s0 =>
    rw [hs] at h
    simp only [Option.some.injEq, Prod.mk.injEq] at h
    obtain ⟨rfl, rfl⟩ := h
    exact ⟨rfl, rfl, rfl, hs, fun dd hdd => hdd, rfl⟩
  | none =>
    rw [hs] at h
    cases hgd : m.getD ops with
    | none => rw [hgd] at h; cases h
    | some dm =>
      rcases dm with ⟨d, m2⟩
      rw [hgd] at h
      simp only [Option.some.injEq, Prod.mk.injEq] at h
      obtain ⟨rfl, rfl⟩ := h
      obtain ⟨h1, h2, h3, h4, h5, h6, h7⟩ := getD_preserves ops m d m2 hgd
      refine ⟨h1, h2, h3, rfl, ?_, ?_⟩
      · intro dd hdd
        have hdd2 : m.getD ops = some (dd, m) := by
          unfold Model.getD
          rw [hdd]
        rw [hgd] at hdd2
        simp only [Option.some.injEq, Prod.mk.injEq] at hdd2
        obtain ⟨rfl, rfl⟩ := hdd2
        simp [h5]
      · rw [h6]
        simp [dval, Model.getD, h5]

theorem getD_dSlot_mono (ops : ExtOps) (m : Model) (d : Mat) (m1 : Model)
    (h : m.getD ops = some (d, m1)) (dd : Mat) (hdd : m.dSlot = some dd) :
    m1.dSlot = some dd := by
  unfold Model.getD at h
  rw [hdd] at h
  simp only [Option.some.injEq, Prod.mk.injEq] at h
  obtain ⟨rfl, rfl⟩ := h
  exact hdd

theorem getattr_preserves (ops : ExtOps) (m : Model) (f : String)
    (v : AttrVal) (m1 : Model) (h : m.getattr ops f = some (v, m1)) :
    m1.r = m.r ∧ m1.F = m.F ∧ m1.Q = m.Q ∧ dval ops m1 = dval ops m
    ∧ (∀ s0, m.stdSlot = some s0 → m1.stdSlot = some s0)
    ∧ (∀ dd, m.dSlot = some dd → m1.dSlot = some dd) := by
  unfold Model.getattr at h
  split_ifs at h
  · simp only [Option.some.injEq, Prod.mk.injEq] at h
    obtain ⟨-, rfl⟩ := h
    exact ⟨rfl, rfl, rfl, rfl, fun _ hs => hs, fun _ hd => hd⟩
  · simp only [Option.some.injEq, Prod.mk.injEq] at h
    obtain ⟨-, rfl⟩ := h
    exact ⟨rfl, rfl, rfl, rfl, fun _ hs => hs, fun _ hd => hd⟩
  · simp only [Option.some.injEq, Prod.mk.injEq] at h
    obtain ⟨-, rfl⟩ := h
    exact ⟨rfl, rfl, rfl, rfl, fun _ hs => hs, fun _ hd => hd⟩
  ·
    cases hgd : m.getD ops with
    | none => rw [hgd] at h; cases h
    | some dm =>
      rcases dm with ⟨d2, m2⟩
      rw [hgd] at h
      simp only [Option.map_some', Option.some.injEq, Prod.mk.injEq] at h
      obtain ⟨-, rfl⟩ := h
      obtain ⟨h1, h2, h3, h4, h5, h6, h7⟩ := getD_preserves ops m d2 m2 hgd
      exact ⟨h1, h2, h3, h7.trans h6.symm,
        fun s0 hs0 => h4.trans hs0,
        fun dd hdd => getD_dSlot_mono ops m d2 m2 hgd dd hdd⟩
  ·
    cases hgdi : m.getDi ops with
    | none => rw [hgdi] at h; cases h
    | some dm =>
      rcases dm with ⟨di2, m2⟩
      rw [hgdi] at h
      simp only [Option.map_some', Option.some.injEq, Prod.mk.injEq] at h
      obtain ⟨-, rfl⟩ := h
      obtain ⟨h1, h2, h3, h4, h5, h6⟩ := getDi_preserves ops m di2 m2 hgdi
      exact ⟨h1, h2, h3, h6, fun s0 hs0 => h4.trans hs0,
        fun dd hdd => h5.trans hdd⟩
  ·
    cases hgs : m.getStd ops with
    | none => rw [hgs] at h; cases h
    | some sm =>
      rcases sm with ⟨s2, m2⟩
      rw [hgs] at h
      simp only [Option.map_some', Option.some.injEq, Prod.mk.injEq] at h
      obtain ⟨-, rfl⟩ := h
      obtain ⟨h1, h2, h3, h4, h5, h6⟩ := getStd_preserves ops m s2 m2 hgs
      refine ⟨h1, h2, h3, h6, ?_, h5⟩
      intro s0 hs0
      have hgs2 : m.getStd ops = some (s0, m) := by
        unfold Model.getStd
        rw [hs0]
      rw [hgs] at hgs2
      simp only [Option.some.injEq, Prod.mk.injEq] at hgs2
      obtain ⟨rfl, rfl⟩ := hgs2
      exact hs0

theorem buildDict_preserves (ops : ExtOps) (fs : List String) (m : Model)
    (d : List (String × AttrVal)) (m2 : Model)
    (h : buildDict ops m fs = some (d, m2)) :
    m2.r = m.r ∧ m2.F = m.F ∧ m2.Q = m.Q ∧ dval ops m2 = dval ops m
    ∧ (∀ s0, m.stdSlot = some s0 → m2.stdSlot = some s0)
    ∧ (∀ dd, m.dSlot = some dd → m2.dSlot = some dd) := by
  induction fs generalizing m d with
  | nil =>
    simp only [buildDict, Option.some.injEq, Prod.mk.injEq] at h
    obtain ⟨-, rfl⟩ := h
    exact ⟨rfl, rfl, rfl, rfl, fun _ hs => hs, fun _ hd => hd⟩
  | cons f rest ih =>
    cases hga : m.getattr ops f with
    | none => simp [buildDict, hga] at h
    | some vm =>
      rcases vm with ⟨v, mA⟩
      simp only [buildDict, hga] at h
      cases hbd : buildDict ops mA rest with
      | none => simp [dictInsert, hbd] at h
      | some dm2 =>
        rcases dm2 with ⟨dR, mB⟩
        rw [hbd] at h
        simp only [dictInsert] at h
        have hm2 : m2 = mB := by
          split at h <;>
            (simp only [Option.some.injEq, Prod.mk.injEq] at h
             exact h.2.symm)
        subst hm2
        obtain ⟨g1, g2, g3, g4, g5, g6⟩ :=
          getattr_preserves ops m f v mA hga
        obtain ⟨b1, b2, b3, b4, b5, b6⟩ := ih mA dR hbd
        exact ⟨b1.trans g1, b2.trans g2, b3.trans g3, b4.trans g4,
          fun s0 hs0 => b5 _ (g5 s0 hs0), fun dd hdd => b6 _ (g6 dd hdd)⟩

theorem buildDict_caches_D (ops : ExtOps) (fs : List String) (m : Model)
    (d : List (String × AttrVal)) (m2 : Model) (hmem : "D" ∈ fs)
    (h : buildDict ops m fs = some (d, m2)) :
    ∃ d0, dval ops m = some d0 ∧ m2.dSlot = some d0 := by
  induction fs generalizing m d with
  | nil => cases hmem
  | cons f rest ih =>
    cases hga : m.getattr ops f with
    | none => simp [buildDict, hga] at h
    | some vm =>
      rcases vm with ⟨v, mA⟩
      simp only [buildDict, hga] at h
      cases hbd : buildDict ops mA rest with
      | none => simp [dictInsert, hbd] at h
      | some dm2 =>
        rcases dm2 with ⟨dR, mB⟩
        rw [hbd] at h
        simp only [dictInsert] at h
        have hm2 : m2 = mB := by
          split at h <;>
            (simp only [Option.some.injEq, Prod.mk.injEq] at h
             exact h.2.symm)
        subst hm2
        by_cases hf : f = "D"
        · subst hf
          have hga2 := hga
          unfold Model.getattr at hga2
          simp only [if_neg (show ¬(("D" : String) = "r") by decide),
            if_neg (show ¬(("D" : String) = "F") by decide),
            if_neg (show ¬(("D" : String) = "Q") by decide),
            if_pos (rfl : ("D" : String) = "D")] at hga2
          cases hgd : m.getD ops with
          | none => rw [hgd] at hga2; cases hga2
          | some dm =>
            rcases dm with ⟨d0, mA2⟩
            rw [hgd] at hga2
            simp only [Option.map_some', Option.some.injEq,
              Prod.mk.injEq] at hga2
            obtain ⟨-, rfl⟩ := hga2
            obtain ⟨-, -, -, -, hslot, hdv, -⟩ :=
              getD_preserves ops m d0 mA hgd
            obtain ⟨-, -, -, -, -, b6⟩ := buildDict_preserves ops rest mA dR
              m2 hbd
            exact ⟨d0, hdv, b6 d0 hslot⟩
        · have hmem2 : "D" ∈ rest := by
            rcases List.mem_cons.mp hmem with h1 | h1
            · exact absurd h1.symm hf
            · exact h1
          obtain ⟨d0, hdv, hslot⟩ := ih mA dR hmem2 hbd
          obtain ⟨-, -, -, g4, -, -⟩ := getattr_preserves ops m f v mA hga
          exact ⟨d0, g4 ▸ hdv, hslot⟩

/-- C10: `to_dict` with an explicit `fields` collection containing `'Q'`
or `'D'` and `normalize=True` divides the model's own stored `Q`
attribute, respectively its cached `_D` array, in place by `max(std)**2`
(the in-place `/=` hits the very arrays the model owns), so the change is
permanent: a later read of `Q` or of the `D` property without an
intervening assignment observes the rescaled arrays, while the cached
`std` keeps its pre-scaling value (it is not invalidated).  With `fields`
omitted (falsy), the exported dict holds freshly scaled copies and the
model's observable attribute values are unchanged. -/
theorem C10_to_dict_inplace_normalize (ops : ExtOps) (m : Model)
    (fields : List String) (d : List (String × AttrVal)) (m' : Model) :
    (fields ≠ [] →
      Model.toDict ops m fields true = some (d, m') →
      ∃ stdv, (m.getStd ops).map Prod.fst = some stdv
      ∧ m'.stdSlot = some stdv
      ∧ ("Q" ∈ fields →
          m'.Q = m.Q.map (fun q => q / (vmax stdv) ^ 2))
      ∧ ("Q" ∉ fields → m'.Q = m.Q)
      ∧ ("D" ∈ fields → ∃ d0, dval ops m = some d0
          ∧ m'.dSlot = some (d0.map (fun row =>
              row.map (fun q => q / (vmax stdv) ^ 2)))
          ∧ m'.getD ops = some (d0.map (fun row =>
              row.map (fun q => q / (vmax stdv) ^ 2)), m')))
    ∧ (Model.toDict ops m [] true = some (d, m') →
      ∃ stdv d0, (m.getStd ops).map Prod.fst = some stdv
      ∧ dval ops m = some d0
      ∧ m'.r = m.r ∧ m'.F = m.F ∧ m'.Q = m.Q
      ∧ dval ops m' = dval ops m
      ∧ m'.stdSlot = some stdv
      ∧ d = [("r", .vec m.r),
             ("D", .mat (d0.map (fun row =>
                row.map (fun q => q / (vmax stdv) ^ 2)))),
             ("F", .mat m.F),
             ("Q", .vec (m.Q.map (fun q => q / (vmax stdv) ^ 2))),
             ("std", .vec stdv)]) := by
  constructor
  · intro hne h
    unfold Model.toDict at h
    rw [if_pos rfl] at h
    cases hgs : m.getStd ops with
    | none => rw [hgs] at h; cases h
    | some sm =>
      rcases sm with ⟨stdv, m1⟩
      rw [hgs] at h
      simp only [Option.map_some'] at h
      have hie : fields.isEmpty = false := by
        cases fields with
        | nil => cases hne rfl
        | cons a l => rfl
      rw [hie, if_pos rfl] at h
      cases hbd : buildDict ops m1 fields with
      | none => rw [hbd] at h; cases h
      | some dm2 =>
        rcases dm2 with ⟨dd, m2⟩
        rw [hbd] at h
        simp only [if_true, Option.some.injEq] at h
        have hm' : m' = (inplaceDiv
            (inplaceDiv dd m2 "Q" fields (vmax stdv ^ 2)).1
            (inplaceDiv dd m2 "Q" fields (vmax stdv ^ 2)).2 "D" fields
            (vmax stdv ^ 2)).2 := by
          rw [h]
        obtain ⟨g1, g2, g3, g4, g5, g6⟩ := getStd_preserves ops m stdv m1 hgs
        obtain ⟨b1, b2, b3, b4, b5, b6⟩ :=
          buildDict_preserves ops fields m1 dd m2 hbd
        have hstd2 : m2.stdSlot = some stdv := b5 stdv g4
        have hQ2 : m2.Q = m.Q := b3.trans g3
        have hdv2 : dval ops m2 = dval ops m := b4.trans g6
        subst hm'
        refine ⟨stdv, rfl, ?_, ?_, ?_, ?_⟩
        · by_cases hQ : "Q" ∈ fields <;> by_cases hD : "D" ∈ fields <;>
            simp [inplaceDiv, hQ, hD, hstd2]
        · intro hQ
          by_cases hD : "D" ∈ fields <;>
            simp [inplaceDiv, hQ, hD, hQ2]
        · intro hQ
          by_cases hD : "D" ∈ fields <;>
            simp [inplaceDiv, hQ, hD, hQ2]
        · intro hD
          obtain ⟨d0, hdv0, hslot0⟩ :=
            buildDict_caches_D ops fields m1 dd m2 hD hbd
          refine ⟨d0, by rw [← g6, hdv0], ?_, ?_⟩
          · by_cases hQ : "Q" ∈ fields <;>
              simp [inplaceDiv, hQ, hD, hslot0]
          · by_cases hQ : "Q" ∈ fields <;>
              simp [inplaceDiv, hQ, hD, Model.getD, hslot0]
  · intro h
    unfold Model.toDict at h
    rw [if_pos rfl] at h
    cases hgs : m.getStd ops with
    | none => rw [hgs] at h; cases h
    | some sm =>
      rcases sm with ⟨stdv, m1⟩
      rw [hgs] at h
      simp only [Option.map_some'] at h
      simp only [List.isEmpty_nil] at h
      rw [if_neg (by decide : ¬(true = false))] at h
      obtain ⟨g1, g2, g3, g4, g5, g6⟩ := getStd_preserves ops m stdv m1 hgs
      cases hgd : m1.getD ops with
      | none => rw [hgd] at h; cases h
      | some dm =>
        rcases dm with ⟨dD, m2⟩
        rw [hgd] at h
        obtain ⟨p1, p2, p3, p4, p5, p6, p7⟩ := getD_preserves ops m1 dD m2 hgd
        have hstd2 : m2.getStd ops = some (stdv, m2) := by
          unfold Model.getStd
          rw [p4.trans g4]
        have h2 : (match Model.getStd ops m2 with
            | none => none
            | some (stdv2, m3) =>
              some ([("r", AttrVal.vec m3.r),
                     ("D", (AttrVal.mat dD).divBy (vmax stdv ^ 2)),
                     ("F", AttrVal.mat m3.F),
                     ("Q", (AttrVal.vec m3.Q).divBy (vmax stdv ^ 2)),
                     ("std", AttrVal.vec stdv2)], m3)) = some (d, m') := h
        rw [hstd2] at h2
        simp only [Option.some.injEq, Prod.mk.injEq] at h2
        obtain ⟨hd, hm'⟩ := h2
        subst hm'
        refine ⟨stdv, dD, rfl, by rw [← g6]; exact p6,
          p1.trans g1, p2.trans g2, p3.trans g3,
          p7.trans (g6.symm.trans p6).symm, p4.trans g4, ?_⟩
        rw [← hd]
        simp only [AttrVal.divBy]
        rw [p1.trans g1, p2.trans g2, p3.trans g3]

/-- A concrete model with `D` data, for the C10 witness. -/
def mSt : Model := Model.ofDataD [1] [[1]] [4] [[1]]

/-- The state of `mSt` after `to_dict(('Q', 'D'), normalize=True)`:
`Q` and the cached `D` are rescaled by `1/max(std)**2 = 1/25`, while the
cached `std` keeps its pre-scaling value `[5]`. -/
def mStAfter : Model :=
  { r := [1], F := [[1]], Q := [4/25], stdSlot := some [5], diSlot := none,
    dSlot := some [[1/25]], computes := 1 }

/-- Witness for C10: the in-place normalization conjunct applied to the
concrete run `mSt.to_dict(('Q', 'D'), normalize=True)`. -/
theorem C10_witness :
    ∃ stdv, (mSt.getStd opsId).map Prod.fst = some stdv
    ∧ mStAfter.stdSlot = some stdv
    ∧ ("Q" ∈ ["Q", "D"] →
        mStAfter.Q = mSt.Q.map (fun q => q / (vmax stdv) ^ 2))
    ∧ ("Q" ∉ ["Q", "D"] → mStAfter.Q = mSt.Q)
    ∧ ("D" ∈ ["Q", "D"] → ∃ d0, dval opsId mSt = some d0
        ∧ mStAfter.dSlot = some (d0.map (fun row =>
            row.map (fun q => q / (vmax stdv) ^ 2)))
        ∧ mStAfter.getD opsId = some (d0.map (fun row =>
            row.map (fun q => q / (vmax stdv) ^ 2)), mStAfter)) :=
  (C10_to_dict_inplace_normalize opsId mSt ["Q", "D"]
      [("Q", .vec [4/25]), ("D", .mat [[1/25]])] mStAfter).1
    (by decide)
    (by
      simp [Model.toDict, mSt, mStAfter, Model.ofDataD, Model.setD,
        Model.getStd, Model.getD, Model.getattr, buildDict, dictInsert,
        inplaceDiv, opsId, stdFormula, vadd, diag, matmul, dotp, transposeM,
        vmax, AttrVal.divBy, List.enum, List.enumFrom, String.reduceEq]
      all_goals norm_num)
